import Mathlib

/-!
Verification of the reviewer-assignment script (`.github/scripts/assign-reviewers.js`).

The script is a sequential pipeline run once per pull-request event:
ownership matching, blame-based candidates, default reviewers, author
exclusion, timezone filtering, permission filtering, and truncation to
`maxReviewers`.  External effects (the platform API, the `minimatch`
library, the current wall-clock time) are modelled as oracle functions
carried in an `Env` record; everything else is translated directly from
the JavaScript source.  JavaScript strings are modelled as `String`,
with the string methods used by the script (`startsWith`, `endsWith`,
`includes`) modelled over the character list so they are executable by
the kernel; JavaScript `Set` values are modelled as insertion-ordered
duplicate-free lists; JavaScript numbers read from the configuration
are modelled as `Int` (the config file is arbitrary JSON, so negative
values are representable), with `Array.prototype.slice` given its real
negative-index semantics.
-/

namespace AssignReviewers

/-- Model of JavaScript `s.startsWith(p)`. -/
def strStartsWith (s p : String) : Bool :=
  List.isPrefixOf p.toList s.toList

/-- Model of JavaScript `s.endsWith(p)`. -/
def strEndsWith (s p : String) : Bool :=
  List.isSuffixOf p.toList s.toList

/-- Model of JavaScript `s.includes(c)` for a single-character needle. -/
def strContainsChar (s : String) (c : Char) : Bool :=
  s.toList.contains c

/-- Substring test on character lists (needle, then haystack). -/
def charsInfix (needle : List Char) : List Char → Bool
  | [] => needle.isEmpty
  | c :: rest => List.isPrefixOf needle (c :: rest) || charsInfix needle rest

/-- Model of JavaScript `s.includes(sub)` for a string needle. -/
def strIncludes (s sub : String) : Bool :=
  charsInfix sub.toList s.toList

/-- Model of `Set.prototype.add` on an insertion-ordered duplicate-free list. -/
def insertIfAbsent (acc : List String) (x : String) : List String :=
  if x ∈ acc then acc else acc ++ [x]

/-- Model of `xs.forEach(r => set.add(r))`. -/
def addAll (acc : List String) (xs : List String) : List String :=
  xs.foldl insertIfAbsent acc

/-- Model of JavaScript `l.slice(0, e)`, including the negative-index case:
a negative `e` counts from the end of the array. -/
def jsSliceToEnd {α : Type} (l : List α) (e : Int) : List α :=
  if e < 0 then l.take (l.length - e.natAbs) else l.take e.toNat

/-- A changed file as returned by `pulls.listFiles` (the fields the script reads). -/
structure ChangedFile where
  filename : String
  status : String

/-- One blame range from the GraphQL blame query: the author login reached
through `commit.author.user?.login` (absent when the chain is null), the
line span, and the age (lower is more recent). -/
structure BlameRange where
  login : Option String
  startingLine : Int
  endingLine : Int
  age : Int

/-- Outcome of the GraphQL blame request for one file: a successful reply
(whose optional payload is `none` when `blameData?.repository?.object?.blame?.ranges`
is nullish), or a thrown error carrying its message. -/
inductive BlameFetch where
  | success : Option (List BlameRange) → BlameFetch
  | failure : String → BlameFetch

/-- Outcome of `repos.getCollaboratorPermissionLevel` for one user: the reported
permission string, a 404 (not a collaborator), or any other error. -/
inductive PermLookup where
  | ok : String → PermLookup
  | notFound : PermLookup
  | otherError : String → PermLookup

/-- The `timezone` section of the configuration file.  `startHour`/`endHour`
are `workingHours.start`/`workingHours.end`; `userTimezones` is the per-user
IANA timezone mapping (`none` when no timezone is recorded for the user). -/
structure TimezoneConfig where
  enabled : Bool
  startHour : Int
  endHour : Int
  userTimezones : String → Option String

/-- The configuration file as loaded, before the script's validation step.
`minReviewers`/`maxReviewers` are `none` when the JSON field is absent or null;
`codeOwners` is the pattern-to-owners mapping in `Object.entries` order;
`defaultReviewers` is `none` when the field is absent (a present empty list is
truthy in JavaScript, hence `some []`). -/
structure Config where
  minReviewers : Option Int
  maxReviewers : Option Int
  codeOwners : List (String × List String)
  defaultReviewers : Option (List String)
  excludeAuthors : Bool
  timezone : Option TimezoneConfig

/-- Oracles for the external world: `glob` is the `minimatch` library
(arguments: filename, pattern); `blame` the GraphQL blame request per file
path; `localHour` the current local hour in a named timezone (`none` when the
timezone identifier is invalid and the conversion throws); `perm` the
collaborator-permission lookup per user; `isMember` the organization-membership
check per user; `isOrganization` whether the repository owner is an
organization. -/
structure Env where
  glob : String → String → Bool
  blame : String → BlameFetch
  localHour : String → Option Int
  perm : String → PermLookup
  isMember : String → Bool
  isOrganization : Bool

/-- The per-pattern dispatch of `getCodeOwners`: a pattern containing `*` is
matched with `minimatch`, otherwise a pattern ending in `/` is matched as a
path prefix, otherwise the pattern must equal the filename. -/
def patternMatches (glob : String → String → Bool) (filename pattern : String) : Bool :=
  if strContainsChar pattern '*' then glob filename pattern
  else if strEndsWith pattern "/" then strStartsWith filename pattern
  else filename == pattern

/-- The `reviewers` array built by `getCodeOwners` before deduplication:
the owner lists of the matching patterns, concatenated in mapping order. -/
def matchingOwners (glob : String → String → Bool) (filename : String)
    (codeOwners : List (String × List String)) : List String :=
  codeOwners.foldl
    (fun acc po => if patternMatches glob filename po.1 then acc ++ po.2 else acc) []

/-- `getCodeOwners`: owners of all matching patterns, duplicates removed
keeping first occurrences (`[...new Set(reviewers)]`). -/
def getCodeOwners (glob : String → String → Bool) (filename : String)
    (codeOwners : List (String × List String)) : List String :=
  (matchingOwners glob filename codeOwners).foldl insertIfAbsent []

/-- Stable insertion of a blame range into a list sorted by ascending age. -/
def insertByAge (r : BlameRange) : List BlameRange → List BlameRange
  | [] => [r]
  | x :: xs => if x.age < r.age then x :: insertByAge r xs else r :: x :: xs

/-- Model of `ranges.sort((a, b) => a.age - b.age)`: a stable sort by
ascending age (ECMAScript `Array.prototype.sort` is stable). -/
def sortByAge (l : List BlameRange) : List BlameRange :=
  l.foldr insertByAge []

/-- The filter `range => range.commit.author.user?.login` (a login that is
absent or the empty string is falsy). -/
def rangeLoginTruthy (r : BlameRange) : Bool :=
  match r.login with
  | some s => s ≠ ""
  | none => false

/-- The collection loop of `getBlameReviewers`: walk the sorted ranges, add
each author that is truthy and differs from the PR author to the set, and
stop as soon as the set holds two logins. -/
def collectRecent (prAuthor : String) : List BlameRange → List String → List String
  | [], acc => acc
  | r :: rs, acc =>
    let author := r.login.getD ""
    if author ≠ "" ∧ author ≠ prAuthor then
      let acc' := insertIfAbsent acc author
      if acc'.length ≥ 2 then acc' else collectRecent prAuthor rs acc'
    else collectRecent prAuthor rs acc

/-- `getBlameReviewers`: the returned reviewer list, paired with whether a
warning was emitted (`core.warning`).  A thrown error whose message contains
`path does not exist` is the new-file case and is only logged as info. -/
def getBlameReviewers (fetch : BlameFetch) (prAuthor : String) : List String × Bool :=
  match fetch with
  | .success none => ([], false)
  | .success (some rs) =>
    let ranges := sortByAge (rs.filter rangeLoginTruthy)
    (collectRecent prAuthor ranges [], false)
  | .failure msg =>
    if strIncludes msg "path does not exist" then ([], false) else ([], true)

/-- One iteration of the `filterByTimezone` loop: keep the reviewer when no
timezone is recorded (falsy entry), when the timezone conversion throws
(fail-open), or when the local hour lies in `[start, end)`. -/
def tzStep (localHour : String → Option Int) (tz : TimezoneConfig)
    (acc : List String) (r : String) : List String :=
  match tz.userTimezones r with
  | none => insertIfAbsent acc r
  | some name =>
    if name = "" then insertIfAbsent acc r
    else
      match localHour name with
      | none => insertIfAbsent acc r
      | some h =>
        if tz.startHour ≤ h ∧ h < tz.endHour then insertIfAbsent acc r else acc

/-- `filterByTimezone`: rebuild the reviewer set keeping only reviewers that
are inside working hours or have no (usable) timezone information. -/
def filterByTimezone (localHour : String → Option Int) (tz : TimezoneConfig)
    (reviewers : List String) : List String :=
  reviewers.foldl (tzStep localHour tz) []

/-- The permission levels accepted by `filterValidReviewers`. -/
def eligiblePerms : List String := ["write", "maintain", "admin"]

/-- One iteration of the `filterValidReviewers` loop.  The first component is
the `validReviewers` array; the second records the organization-membership
checks that were performed (user and result), which the script uses only for
logging. -/
def fvrStep (perm : String → PermLookup) (isMember : String → Bool)
    (isOrganization : Bool) (acc : List String × List (String × Bool))
    (r : String) : List String × List (String × Bool) :=
  match perm r with
  | .ok p => if p ∈ eligiblePerms then (acc.1 ++ [r], acc.2) else acc
  | .notFound =>
    if isOrganization then (acc.1, acc.2 ++ [(r, isMember r)]) else acc
  | .otherError _ => acc

/-- `filterValidReviewers`: candidates holding write/maintain/admin permission,
in input order, paired with the log of membership checks performed. -/
def filterValidReviewers (perm : String → PermLookup) (isMember : String → Bool)
    (isOrganization : Bool) (reviewers : List String) :
    List String × List (String × Bool) :=
  reviewers.foldl (fvrStep perm isMember isOrganization) ([], [])

/-- Whether `minReviewers` is falsy and hence defaulted with a warning. -/
def minDefaulted (c : Config) : Bool :=
  match c.minReviewers with
  | none => true
  | some v => v == 0

/-- Whether `maxReviewers` is falsy and hence defaulted with a warning. -/
def maxDefaulted (c : Config) : Bool :=
  match c.maxReviewers with
  | none => true
  | some v => v == 0

/-- `config.minReviewers` after validation: a falsy value (absent or `0`)
is replaced by the default `2`. -/
def effectiveMin (c : Config) : Int :=
  match c.minReviewers with
  | none => 2
  | some v => if v = 0 then 2 else v

/-- `config.maxReviewers` after validation: a falsy value (absent or `0`)
is replaced by the default `3`. -/
def effectiveMax (c : Config) : Int :=
  match c.maxReviewers with
  | none => 3
  | some v => if v = 0 then 3 else v

/-- Stage 1: code owners of every changed file, accumulated into the set. -/
def ownershipStage (env : Env) (c : Config) (files : List ChangedFile) : List String :=
  files.foldl
    (fun acc f => addAll acc (getCodeOwners env.glob f.filename c.codeOwners)) []

/-- Stage 2: when the set is still below `minReviewers`, add blame reviewers
of every modified file, skipping files once the set reached `maxReviewers`. -/
def blameStage (env : Env) (c : Config) (files : List ChangedFile)
    (prAuthor : String) (reviewers : List String) : List String :=
  if (reviewers.length : Int) < effectiveMin c then
    files.foldl
      (fun acc f =>
        if f.status == "modified" ∧ (acc.length : Int) < effectiveMax c then
          addAll acc (getBlameReviewers (env.blame f.filename) prAuthor).1
        else acc)
      reviewers
  else reviewers

/-- Stage 3: when the set is still below `minReviewers` and defaults are
configured, add the first `minReviewers - size` entries of `defaultReviewers`. -/
def defaultsStage (c : Config) (reviewers : List String) : List String :=
  match c.defaultReviewers with
  | some ds =>
    if (reviewers.length : Int) < effectiveMin c then
      addAll reviewers (jsSliceToEnd ds (effectiveMin c - reviewers.length))
    else reviewers
  | none => reviewers

/-- Author exclusion: `reviewers.delete(prAuthor)` when `excludeAuthors` is set. -/
def excludeStage (c : Config) (prAuthor : String) (reviewers : List String) : List String :=
  if c.excludeAuthors then reviewers.erase prAuthor else reviewers

/-- Timezone filtering, applied only when `config.timezone?.enabled`. -/
def timezoneStage (env : Env) (c : Config) (reviewers : List String) : List String :=
  match c.timezone with
  | some tz => if tz.enabled then filterByTimezone env.localHour tz reviewers else reviewers
  | none => reviewers

/-- The whole pipeline of the script's main body, from the changed-file list
to `finalReviewers`. -/
def runPipeline (env : Env) (c : Config) (files : List ChangedFile)
    (prAuthor : String) : List String :=
  let r1 := ownershipStage env c files
  let r2 := blameStage env c files prAuthor r1
  let r3 := defaultsStage c r2
  let r4 := excludeStage c prAuthor r3
  let r5 := timezoneStage env c r4
  let r6 := (filterValidReviewers env.perm env.isMember env.isOrganization r5).1
  jsSliceToEnd r6 (effectiveMax c)

open scoped List

/-! ### Library lemmas about the set and slice operations -/

theorem insertIfAbsent_extends (acc : List String) (x : String) :
    acc <+: insertIfAbsent acc x := by
  unfold insertIfAbsent
  by_cases h : x ∈ acc
  · simp [h]
  · simp [h, List.prefix_append]

theorem foldl_extends {β : Type} (f : List String → β → List String)
    (h : ∀ acc x, acc <+: f acc x) :
    ∀ (xs : List β) (acc : List String), acc <+: xs.foldl f acc := by
  intro xs
  induction xs with
  | nil => intro acc; exact List.prefix_refl acc
  | cons x xs ih =>
    intro acc
    exact (h acc x).trans (ih (f acc x))

theorem addAll_extends (acc : List String) (xs : List String) :
    acc <+: addAll acc xs :=
  foldl_extends insertIfAbsent insertIfAbsent_extends xs acc

theorem insertIfAbsent_sublist (acc : List String) (x : String) :
    insertIfAbsent acc x <+ acc ++ [x] := by
  unfold insertIfAbsent
  by_cases h : x ∈ acc
  · simp [h]
  · simp [h]

theorem mem_insertIfAbsent (acc : List String) (x y : String) :
    y ∈ insertIfAbsent acc x ↔ y ∈ acc ∨ y = x := by
  unfold insertIfAbsent
  by_cases h : x ∈ acc
  · simp [h]
    intro hy; subst hy; exact h
  · simp [h]

theorem nodup_insertIfAbsent (acc : List String) (x : String) (h : acc.Nodup) :
    (insertIfAbsent acc x).Nodup := by
  unfold insertIfAbsent
  by_cases hx : x ∈ acc
  · simpa [hx]
  · simpa [hx, List.nodup_append] using h

theorem nodup_foldl {β : Type} (f : List String → β → List String)
    (h : ∀ acc x, acc.Nodup → (f acc x).Nodup) :
    ∀ (xs : List β) (acc : List String), acc.Nodup → (xs.foldl f acc).Nodup := by
  intro xs
  induction xs with
  | nil => intro acc hacc; exact hacc
  | cons x xs ih => intro acc hacc; exact ih (f acc x) (h acc x hacc)

theorem nodup_addAll (acc : List String) (xs : List String) (h : acc.Nodup) :
    (addAll acc xs).Nodup :=
  nodup_foldl insertIfAbsent nodup_insertIfAbsent xs acc h

theorem mem_addAll (acc : List String) (xs : List String) (y : String) :
    y ∈ addAll acc xs ↔ y ∈ acc ∨ y ∈ xs := by
  unfold addAll
  induction xs generalizing acc with
  | nil => simp
  | cons x xs ih =>
    simp only [List.foldl_cons]
    rw [ih, mem_insertIfAbsent]
    constructor
    · rintro (⟨h | h⟩ | h)
      · exact Or.inl h
      · exact Or.inr (by simp [h])
      · exact Or.inr (by simp [h])
    · rintro (h | h)
      · exact Or.inl (Or.inl h)
      · rcases List.mem_cons.mp h with h | h
        · exact Or.inl (Or.inr h)
        · exact Or.inr h

theorem addAll_eq_append (acc : List String) (xs : List String)
    (hfresh : ∀ x ∈ xs, x ∉ acc) (hnd : xs.Nodup) :
    addAll acc xs = acc ++ xs := by
  unfold addAll
  induction xs generalizing acc with
  | nil => simp
  | cons x xs ih =>
    simp only [List.foldl_cons]
    have hx : x ∉ acc := hfresh x (by simp)
    have h1 : insertIfAbsent acc x = acc ++ [x] := by simp [insertIfAbsent, hx]
    rw [h1, ih (acc ++ [x])]
    · simp
    · intro y hy
      simp only [List.mem_append, List.mem_singleton]
      rintro (h | h)
      · exact hfresh y (by simp [hy]) h
      · subst h; exact (List.nodup_cons.mp hnd).1 hy
    · exact (List.nodup_cons.mp hnd).2

theorem mem_foldl_of_step {β : Type} (f : List String → β → List String)
    (sel : β → String)
    (h : ∀ acc x y, y ∈ f acc x → y ∈ acc ∨ y = sel x) :
    ∀ (xs : List β) (acc : List String) (y : String),
      y ∈ xs.foldl f acc → y ∈ acc ∨ ∃ x ∈ xs, y = sel x := by
  intro xs
  induction xs with
  | nil => intro acc y hy; exact Or.inl hy
  | cons x xs ih =>
    intro acc y hy
    rcases ih (f acc x) y hy with h1 | h1
    · rcases h acc x y h1 with h2 | h2
      · exact Or.inl h2
      · exact Or.inr ⟨x, by simp, h2⟩
    · rcases h1 with ⟨z, hz, rfl⟩
      exact Or.inr ⟨z, by simp [hz], rfl⟩

theorem foldl_sublist_append {β : Type} (f : List String → β → List String)
    (sel : β → String)
    (h : ∀ acc x, f acc x <+ acc ++ [sel x]) :
    ∀ (xs : List β) (acc : List String), xs.foldl f acc <+ acc ++ xs.map sel := by
  intro xs
  induction xs with
  | nil => intro acc; simp
  | cons x xs ih =>
    intro acc
    have h1 := ih (f acc x)
    have h2 : f acc x ++ xs.map sel <+ (acc ++ [sel x]) ++ xs.map sel :=
      (h acc x).append_right _
    simp only [List.foldl_cons, List.map_cons]
    exact h1.trans (by simpa [List.append_assoc] using h2)

theorem jsSliceToEnd_sublist {α : Type} (l : List α) (e : Int) :
    jsSliceToEnd l e <+ l := by
  unfold jsSliceToEnd
  by_cases h : e < 0 <;> simp [h, List.take_sublist]

theorem length_jsSliceToEnd_le {α : Type} (l : List α) (e : Int) (h : 0 ≤ e) :
    ((jsSliceToEnd l e).length : Int) ≤ e := by
  unfold jsSliceToEnd
  rw [if_neg (by omega)]
  have h2 : (l.take e.toNat).length ≤ e.toNat := by
    simp [List.length_take]
  omega

theorem jsSliceToEnd_of_nonneg {α : Type} (l : List α) (e : Int) (h : 0 ≤ e) :
    jsSliceToEnd l e = l.take e.toNat := by
  unfold jsSliceToEnd
  rw [if_neg (by omega)]

/-! ### Lemmas about the timezone filter -/

theorem tzStep_eq_or (localHour : String → Option Int) (tz : TimezoneConfig)
    (acc : List String) (r : String) :
    tzStep localHour tz acc r = acc ∨ tzStep localHour tz acc r = insertIfAbsent acc r := by
  unfold tzStep
  split
  · exact Or.inr rfl
  · split
    · exact Or.inr rfl
    · split
      · exact Or.inr rfl
      · split
        · exact Or.inr rfl
        · exact Or.inl rfl

theorem mem_tzStep (localHour : String → Option Int) (tz : TimezoneConfig)
    (acc : List String) (r y : String) (h : y ∈ tzStep localHour tz acc r) :
    y ∈ acc ∨ y = r := by
  rcases tzStep_eq_or localHour tz acc r with h1 | h1
  · rw [h1] at h; exact Or.inl h
  · rw [h1] at h; exact (mem_insertIfAbsent acc r y).mp h

theorem tzStep_sublist (localHour : String → Option Int) (tz : TimezoneConfig)
    (acc : List String) (r : String) :
    tzStep localHour tz acc r <+ acc ++ [r] := by
  rcases tzStep_eq_or localHour tz acc r with h1 | h1
  · rw [h1]; simp
  · rw [h1]; exact insertIfAbsent_sublist acc r

theorem mem_filterByTimezone (localHour : String → Option Int) (tz : TimezoneConfig)
    (reviewers : List String) (y : String) (h : y ∈ filterByTimezone localHour tz reviewers) :
    y ∈ reviewers := by
  unfold filterByTimezone at h
  rcases mem_foldl_of_step (tzStep localHour tz) id
      (fun acc x z hz => mem_tzStep localHour tz acc x z hz)
      reviewers [] y h with h1 | h1
  · simp at h1
  · rcases h1 with ⟨x, hx, rfl⟩; exact hx

theorem filterByTimezone_sublist (localHour : String → Option Int) (tz : TimezoneConfig)
    (reviewers : List String) :
    filterByTimezone localHour tz reviewers <+ reviewers := by
  unfold filterByTimezone
  have h := foldl_sublist_append (tzStep localHour tz) id
      (fun acc x => tzStep_sublist localHour tz acc x) reviewers []
  simpa using h

theorem timezoneStage_sublist (env : Env) (c : Config) (reviewers : List String) :
    timezoneStage env c reviewers <+ reviewers := by
  unfold timezoneStage
  rcases c.timezone with _ | tz
  · exact List.Sublist.refl _
  · by_cases h : tz.enabled = true
    · simp only [h, if_true]
      exact filterByTimezone_sublist env.localHour tz reviewers
    · simp only [Bool.not_eq_true] at h
      simp only [h, Bool.false_eq_true, if_false]
      exact List.Sublist.refl _

/-! ### Lemmas about the permission filter -/

/-- Whether a permission lookup outcome makes the candidate eligible:
exactly the `ok` outcomes whose permission string is listed in `eligiblePerms`. -/
def permEligible : PermLookup → Bool
  | .ok p => decide (p ∈ eligiblePerms)
  | .notFound => false
  | .otherError _ => false

/-- Whether a permission lookup outcome is the 404 not-a-collaborator case. -/
def permNotFound : PermLookup → Bool
  | .notFound => true
  | _ => false

theorem fvr_foldl_characterization (perm : String → PermLookup)
    (isMember : String → Bool) (isOrganization : Bool) :
    ∀ (rs : List String) (acc : List String × List (String × Bool)),
      rs.foldl (fvrStep perm isMember isOrganization) acc =
        (acc.1 ++ rs.filter (fun r => permEligible (perm r)),
         acc.2 ++ if isOrganization then
             (rs.filter (fun r => permNotFound (perm r))).map (fun r => (r, isMember r))
           else []) := by
  intro rs
  induction rs with
  | nil => intro acc; simp
  | cons r rest ih =>
    intro acc
    simp only [List.foldl_cons]
    rw [ih]
    rcases hp : perm r with p | _ | msg
    · by_cases he : p ∈ eligiblePerms
      · simp [fvrStep, permEligible, permNotFound, hp, he, List.filter_cons]
      · simp [fvrStep, permEligible, permNotFound, hp, he, List.filter_cons]
    · by_cases ho : isOrganization = true
      · simp [fvrStep, permEligible, permNotFound, hp, ho, List.filter_cons]
      · simp only [Bool.not_eq_true] at ho
        simp [fvrStep, permEligible, permNotFound, hp, ho, List.filter_cons]
    · simp [fvrStep, permEligible, permNotFound, hp, List.filter_cons]

theorem filterValidReviewers_fst (perm : String → PermLookup)
    (isMember : String → Bool) (isOrganization : Bool) (rs : List String) :
    (filterValidReviewers perm isMember isOrganization rs).1 =
      rs.filter (fun r => permEligible (perm r)) := by
  unfold filterValidReviewers
  rw [fvr_foldl_characterization]
  simp

theorem filterValidReviewers_snd (perm : String → PermLookup)
    (isMember : String → Bool) (isOrganization : Bool) (rs : List String) :
    (filterValidReviewers perm isMember isOrganization rs).2 =
      if isOrganization then
        (rs.filter (fun r => permNotFound (perm r))).map (fun r => (r, isMember r))
      else [] := by
  unfold filterValidReviewers
  rw [fvr_foldl_characterization]
  simp

/-! ### Lemmas about the blame resolver -/

theorem mem_insertByAge (r x : BlameRange) :
    ∀ l : List BlameRange, x ∈ insertByAge r l ↔ x = r ∨ x ∈ l := by
  intro l
  induction l with
  | nil => simp [insertByAge]
  | cons a as ih =>
    unfold insertByAge
    by_cases h : a.age < r.age
    · simp only [h, if_true, List.mem_cons, ih]
      tauto
    · simp [h]

theorem mem_sortByAge (l : List BlameRange) (x : BlameRange) :
    x ∈ sortByAge l ↔ x ∈ l := by
  unfold sortByAge
  induction l with
  | nil => simp
  | cons a as ih =>
    simp only [List.foldr_cons, mem_insertByAge, List.mem_cons, ih]

theorem collectRecent_length (pa : String) :
    ∀ (rs : List BlameRange) (acc : List String),
      acc.length ≤ 1 → (collectRecent pa rs acc).length ≤ 2 := by
  intro rs
  induction rs with
  | nil => intro acc h; unfold collectRecent; omega
  | cons r rest ih =>
    intro acc h
    unfold collectRecent
    set author := r.login.getD "" with hauth
    by_cases h1 : author ≠ "" ∧ author ≠ pa
    · rw [if_pos h1]
      have hlen : (insertIfAbsent acc author).length ≤ acc.length + 1 := by
        unfold insertIfAbsent
        by_cases h2 : author ∈ acc
        · simp [h2]
        · simp [h2]
      by_cases h3 : (insertIfAbsent acc author).length ≥ 2
      · rw [if_pos h3]; omega
      · rw [if_neg h3]
        exact ih (insertIfAbsent acc author) (by omega)
    · rw [if_neg h1]
      exact ih acc h

theorem collectRecent_not_author (pa : String) :
    ∀ (rs : List BlameRange) (acc : List String),
      pa ∉ acc → pa ∉ collectRecent pa rs acc := by
  intro rs
  induction rs with
  | nil => intro acc h; unfold collectRecent; exact h
  | cons r rest ih =>
    intro acc h
    unfold collectRecent
    set author := r.login.getD "" with hauth
    by_cases h1 : author ≠ "" ∧ author ≠ pa
    · rw [if_pos h1]
      have h2 : pa ∉ insertIfAbsent acc author := by
        rw [mem_insertIfAbsent]
        rintro (h3 | h3)
        · exact h h3
        · exact h1.2 h3.symm
      by_cases h3 : (insertIfAbsent acc author).length ≥ 2
      · rw [if_pos h3]; exact h2
      · rw [if_neg h3]; exact ih (insertIfAbsent acc author) h2
    · rw [if_neg h1]
      exact ih acc h

theorem collectRecent_nodup (pa : String) :
    ∀ (rs : List BlameRange) (acc : List String),
      acc.Nodup → (collectRecent pa rs acc).Nodup := by
  intro rs
  induction rs with
  | nil => intro acc h; unfold collectRecent; exact h
  | cons r rest ih =>
    intro acc h
    unfold collectRecent
    set author := r.login.getD "" with hauth
    by_cases h1 : author ≠ "" ∧ author ≠ pa
    · rw [if_pos h1]
      have h2 := nodup_insertIfAbsent acc author h
      by_cases h3 : (insertIfAbsent acc author).length ≥ 2
      · rw [if_pos h3]; exact h2
      · rw [if_neg h3]; exact ih (insertIfAbsent acc author) h2
    · rw [if_neg h1]
      exact ih acc h

theorem collectRecent_provenance (pa : String) :
    ∀ (rs : List BlameRange) (acc : List String) (x : String),
      x ∈ collectRecent pa rs acc →
      x ∈ acc ∨ ∃ r ∈ rs, r.login = some x ∧ x ≠ "" := by
  intro rs
  induction rs with
  | nil =>
    intro acc x h
    unfold collectRecent at h
    exact Or.inl h
  | cons r rest ih =>
    intro acc x h
    unfold collectRecent at h
    by_cases h1 : r.login.getD "" ≠ "" ∧ r.login.getD "" ≠ pa
    · rw [if_pos h1] at h
      have hmem : x ∈ insertIfAbsent acc (r.login.getD "") →
          x ∈ acc ∨ ∃ r' ∈ r :: rest, r'.login = some x ∧ x ≠ "" := by
        intro hx
        rcases (mem_insertIfAbsent acc (r.login.getD "") x).mp hx with h2 | h2
        · exact Or.inl h2
        · subst h2
          refine Or.inr ⟨r, by simp, ?_, h1.1⟩
          rcases hl : r.login with _ | s
          · rw [hl] at h1; simp [Option.getD] at h1
          · simp [hl]
      by_cases h3 : (insertIfAbsent acc (r.login.getD "")).length ≥ 2
      · rw [if_pos h3] at h
        exact hmem h
      · rw [if_neg h3] at h
        rcases ih (insertIfAbsent acc (r.login.getD "")) x h with h4 | h4
        · exact hmem h4
        · rcases h4 with ⟨r', hr', hlog⟩
          exact Or.inr ⟨r', by simp [hr'], hlog⟩
    · rw [if_neg h1] at h
      rcases ih acc x h with h2 | h2
      · exact Or.inl h2
      · rcases h2 with ⟨r', hr', hlog⟩
        exact Or.inr ⟨r', by simp [hr'], hlog⟩

/-! ### Lemmas about the pipeline stages -/

theorem nodup_ownershipStage (env : Env) (c : Config) (files : List ChangedFile) :
    (ownershipStage env c files).Nodup := by
  unfold ownershipStage
  exact nodup_foldl _ (fun acc f hacc => nodup_addAll acc _ hacc) files [] List.nodup_nil

theorem nodup_blameStage (env : Env) (c : Config) (files : List ChangedFile)
    (pa : String) (reviewers : List String) (h : reviewers.Nodup) :
    (blameStage env c files pa reviewers).Nodup := by
  unfold blameStage
  by_cases h1 : (reviewers.length : Int) < effectiveMin c
  · rw [if_pos h1]
    refine nodup_foldl _ (fun acc f hacc => ?_) files reviewers h
    by_cases h2 : f.status == "modified" ∧ (acc.length : Int) < effectiveMax c
    · rw [if_pos h2]; exact nodup_addAll acc _ hacc
    · rw [if_neg h2]; exact hacc
  · rw [if_neg h1]; exact h

theorem nodup_defaultsStage (c : Config) (reviewers : List String)
    (h : reviewers.Nodup) : (defaultsStage c reviewers).Nodup := by
  unfold defaultsStage
  split
  · split
    · exact nodup_addAll reviewers _ h
    · exact h
  · exact h

theorem blameStage_extends (env : Env) (c : Config) (files : List ChangedFile)
    (pa : String) (reviewers : List String) :
    reviewers <+: blameStage env c files pa reviewers := by
  unfold blameStage
  split
  · refine foldl_extends _ (fun acc f => ?_) files reviewers
    by_cases h2 : f.status == "modified" ∧ (acc.length : Int) < effectiveMax c
    · rw [if_pos h2]
      exact addAll_extends acc _
    · rw [if_neg h2]
  · exact List.prefix_refl reviewers

theorem defaultsStage_extends (c : Config) (reviewers : List String) :
    reviewers <+: defaultsStage c reviewers := by
  unfold defaultsStage
  split
  · split
    · exact addAll_extends reviewers _
    · exact List.prefix_refl reviewers
  · exact List.prefix_refl reviewers

theorem excludeStage_sublist (c : Config) (pa : String) (reviewers : List String) :
    excludeStage c pa reviewers <+ reviewers := by
  unfold excludeStage
  split
  · exact List.erase_sublist pa reviewers
  · exact List.Sublist.refl reviewers

theorem runPipeline_sublist_afterDefaults (env : Env) (c : Config)
    (files : List ChangedFile) (pa : String) :
    runPipeline env c files pa <+
      defaultsStage c (blameStage env c files pa (ownershipStage env c files)) := by
  unfold runPipeline
  refine (jsSliceToEnd_sublist _ _).trans ?_
  rw [filterValidReviewers_fst]
  refine (List.filter_sublist _).trans ?_
  refine (timezoneStage_sublist env c _).trans ?_
  exact excludeStage_sublist c pa _

/-! ### Characterizations used by the ownership and permission claims -/

theorem patternMatches_true_iff (glob : String → String → Bool) (filename pattern : String) :
    patternMatches glob filename pattern = true ↔
      (strContainsChar pattern '*' = true ∧ glob filename pattern = true)
      ∨ (strContainsChar pattern '*' = false ∧ strEndsWith pattern "/" = true ∧
          strStartsWith filename pattern = true)
      ∨ (strContainsChar pattern '*' = false ∧ strEndsWith pattern "/" = false ∧
          filename = pattern) := by
  unfold patternMatches
  by_cases h1 : strContainsChar pattern '*' = true
  · simp [h1]
  · simp only [Bool.not_eq_true] at h1
    by_cases h2 : strEndsWith pattern "/" = true
    · simp [h1, h2]
    · simp only [Bool.not_eq_true] at h2
      simp [h1, h2]

theorem mem_matchingOwners (glob : String → String → Bool) (filename : String)
    (codeOwners : List (String × List String)) (x : String) :
    x ∈ matchingOwners glob filename codeOwners ↔
      ∃ po, po ∈ codeOwners ∧ patternMatches glob filename po.1 = true ∧ x ∈ po.2 := by
  unfold matchingOwners
  have hgen : ∀ (m : List (String × List String)) (acc : List String),
      x ∈ m.foldl (fun acc po => if patternMatches glob filename po.1 then acc ++ po.2 else acc) acc ↔
        x ∈ acc ∨ ∃ po, po ∈ m ∧ patternMatches glob filename po.1 = true ∧ x ∈ po.2 := by
    intro m
    induction m with
    | nil => intro acc; simp
    | cons po rest ih =>
      intro acc
      simp only [List.foldl_cons]
      rw [ih]
      by_cases h : patternMatches glob filename po.1 = true
      · simp only [h, if_true, List.mem_append]
        constructor
        · rintro (⟨h1 | h1⟩ | h1)
          · exact Or.inl h1
          · exact Or.inr ⟨po, by simp, h, h1⟩
          · rcases h1 with ⟨q, hq, hm, hx⟩
            exact Or.inr ⟨q, by simp [hq], hm, hx⟩
        · rintro (h1 | h1)
          · exact Or.inl (Or.inl h1)
          · rcases h1 with ⟨q, hq, hm, hx⟩
            rcases List.mem_cons.mp hq with h2 | h2
            · subst h2; exact Or.inl (Or.inr hx)
            · exact Or.inr ⟨q, h2, hm, hx⟩
      · simp only [Bool.not_eq_true] at h
        simp only [h, Bool.false_eq_true, if_false]
        constructor
        · rintro (h1 | h1)
          · exact Or.inl h1
          · rcases h1 with ⟨q, hq, hm, hx⟩
            exact Or.inr ⟨q, by simp [hq], hm, hx⟩
        · rintro (h1 | h1)
          · exact Or.inl h1
          · rcases h1 with ⟨q, hq, hm, hx⟩
            rcases List.mem_cons.mp hq with h2 | h2
            · subst h2; rw [h] at hm; exact absurd hm (by simp)
            · exact Or.inr ⟨q, h2, hm, hx⟩
  rw [hgen]
  simp

theorem addAll_nil_sublist (xs : List String) : addAll [] xs <+ xs := by
  have h := foldl_sublist_append insertIfAbsent id insertIfAbsent_sublist xs []
  simpa using h

theorem permEligible_true_iff (pl : PermLookup) :
    permEligible pl = true ↔
      pl = .ok "write" ∨ pl = .ok "maintain" ∨ pl = .ok "admin" := by
  rcases pl with p | _ | msg
  · simp [permEligible, eligiblePerms]
  · simp [permEligible]
  · simp [permEligible]

/-! ### Shared concrete fixtures for witnesses and counterexamples -/

/-- A benign oracle environment for concrete runs: `minimatch` never matches,
every blame lookup fails as for a brand-new file, every timezone conversion
throws, every user holds `write` permission, nobody is an organization member,
and the repository owner is an individual account. -/
def probeEnv : Env :=
  { glob := fun _ _ => false
    blame := fun _ => .failure "path does not exist"
    localHour := fun _ => none
    perm := fun _ => .ok "write"
    isMember := fun _ => false
    isOrganization := false }

theorem permNotFound_true_iff (pl : PermLookup) :
    permNotFound pl = true ↔ pl = .notFound := by
  rcases pl with p | _ | msg <;> simp [permNotFound]

/-- The blame ranges contained in a blame reply (empty for error replies and
for replies whose range chain is nullish). -/
def fetchRanges : BlameFetch → List BlameRange
  | .success (some rs) => rs
  | .success none => []
  | .failure _ => []

/-! ### Claim theorems -/

/-- C4 (confirmed): for every file path and every `codeOwners` mapping, the
ownership matcher returns exactly the duplicate-free union, in mapping order,
of the owner lists of the matching patterns, where a pattern containing a
wildcard matches by glob (`minimatch`) semantics, a pattern ending in a path
separator matches as a path prefix, and any other pattern matches only by
exact equality with the path.  A path matched by no pattern contributes no
reviewers (the membership characterization is then vacuous, so the result is
empty), and the matcher is a total function, so no error occurs. -/
theorem C4_ownership_matcher (glob : String → String → Bool) (filename : String)
    (codeOwners : List (String × List String)) :
    (∀ x, x ∈ getCodeOwners glob filename codeOwners ↔
      ∃ po, po ∈ codeOwners ∧
        ((strContainsChar po.1 '*' = true ∧ glob filename po.1 = true)
          ∨ (strContainsChar po.1 '*' = false ∧ strEndsWith po.1 "/" = true ∧
              strStartsWith filename po.1 = true)
          ∨ (strContainsChar po.1 '*' = false ∧ strEndsWith po.1 "/" = false ∧
              filename = po.1)) ∧
        x ∈ po.2)
    ∧ (getCodeOwners glob filename codeOwners).Nodup
    ∧ getCodeOwners glob filename codeOwners <+ matchingOwners glob filename codeOwners := by
  have heq : getCodeOwners glob filename codeOwners =
      addAll [] (matchingOwners glob filename codeOwners) := rfl
  refine ⟨?_, ?_, ?_⟩
  · intro x
    rw [heq, mem_addAll]
    simp only [List.not_mem_nil, false_or]
    rw [mem_matchingOwners]
    constructor
    · rintro ⟨po, hpo, hm, hx⟩
      exact ⟨po, hpo, (patternMatches_true_iff glob filename po.1).mp hm, hx⟩
    · rintro ⟨po, hpo, hm, hx⟩
      exact ⟨po, hpo, (patternMatches_true_iff glob filename po.1).mpr hm, hx⟩
  · rw [heq]
    exact nodup_addAll [] _ List.nodup_nil
  · rw [heq]
    exact addAll_nil_sublist _

/-- C5 (confirmed): for every blame reply, the blame resolver returns at most
two distinct usernames, none equal to the PR author and none coming from a
range without a resolvable platform account (a range whose author login is
absent or empty); the candidates are drawn by sorting the ranges by ascending
age and walking that order until two distinct eligible authors are collected,
as the definition of `getBlameReviewers` states. -/
theorem C5_blame_resolver (fetch : BlameFetch) (prAuthor : String) :
    ((getBlameReviewers fetch prAuthor).1).length ≤ 2
    ∧ ((getBlameReviewers fetch prAuthor).1).Nodup
    ∧ prAuthor ∉ (getBlameReviewers fetch prAuthor).1
    ∧ ∀ x ∈ (getBlameReviewers fetch prAuthor).1,
        x ≠ "" ∧ ∃ r ∈ fetchRanges fetch, r.login = some x := by
  rcases fetch with op | msg
  · rcases op with _ | rs
    · simp [getBlameReviewers]
    · simp only [getBlameReviewers]
      refine ⟨collectRecent_length prAuthor _ [] (by simp), collectRecent_nodup prAuthor _ [] List.nodup_nil,
        collectRecent_not_author prAuthor _ [] (by simp), ?_⟩
      intro x hx
      rcases collectRecent_provenance prAuthor _ [] x hx with h | h
      · simp at h
      · rcases h with ⟨r, hr, hlog, hne⟩
        rw [mem_sortByAge, List.mem_filter] at hr
        exact ⟨hne, r, hr.1, hlog⟩
  · unfold getBlameReviewers
    by_cases h : strIncludes msg "path does not exist" = true
    · simp [h]
    · simp only [Bool.not_eq_true] at h
      simp [h]

/-- Witness for C5 at a concrete two-range blame reply: the more recent
author `carol` (age 1) and then `bob` (age 5) are collected, the PR author is
absent, and `carol` comes from a range with a resolvable account. -/
theorem C5_blame_resolver_witness :
    ((getBlameReviewers (.success (some [⟨some "bob", 1, 2, 5⟩, ⟨some "carol", 3, 4, 1⟩]))
        "alice").1).length ≤ 2
    ∧ "alice" ∉ (getBlameReviewers (.success (some [⟨some "bob", 1, 2, 5⟩, ⟨some "carol", 3, 4, 1⟩]))
        "alice").1
    ∧ ("carol" ≠ "" ∧ ∃ r ∈ fetchRanges (.success (some [⟨some "bob", 1, 2, 5⟩, ⟨some "carol", 3, 4, 1⟩])),
        r.login = some "carol") :=
  ⟨(C5_blame_resolver (.success (some [⟨some "bob", 1, 2, 5⟩, ⟨some "carol", 3, 4, 1⟩])) "alice").1,
   (C5_blame_resolver (.success (some [⟨some "bob", 1, 2, 5⟩, ⟨some "carol", 3, 4, 1⟩])) "alice").2.2.1,
   (C5_blame_resolver (.success (some [⟨some "bob", 1, 2, 5⟩, ⟨some "carol", 3, 4, 1⟩])) "alice").2.2.2
     "carol" (by decide)⟩

/-- C6 (confirmed): the permission filter keeps a candidate exactly when the
platform reports collaborator permission `write`, `maintain` or `admin`; when
the platform reports 404 and the repository owner is an organization, a
membership check is performed (recorded in the second component, which the
script uses only for logging) and its outcome never makes the candidate
eligible — the kept list is the same for every membership oracle and owner
type; a lookup error drops only that candidate, the remaining candidates are
still filtered. -/
theorem C6_permission_filter (perm : String → PermLookup) (isMember : String → Bool)
    (isOrganization : Bool) (reviewers : List String) :
    (∀ r, r ∈ (filterValidReviewers perm isMember isOrganization reviewers).1 ↔
        r ∈ reviewers ∧
          (perm r = .ok "write" ∨ perm r = .ok "maintain" ∨ perm r = .ok "admin"))
    ∧ (filterValidReviewers perm isMember isOrganization reviewers).1 =
        reviewers.filter (fun r => permEligible (perm r))
    ∧ (∀ r b, (r, b) ∈ (filterValidReviewers perm isMember isOrganization reviewers).2 ↔
        r ∈ reviewers ∧ perm r = .notFound ∧ isOrganization = true ∧ b = isMember r)
    ∧ (∀ isMember' isOrganization',
        (filterValidReviewers perm isMember' isOrganization' reviewers).1 =
          (filterValidReviewers perm isMember isOrganization reviewers).1)
    ∧ (∀ r rest, (filterValidReviewers perm isMember isOrganization (r :: rest)).1 =
        (if permEligible (perm r) then [r] else []) ++
          (filterValidReviewers perm isMember isOrganization rest).1) := by
  refine ⟨?_, filterValidReviewers_fst perm isMember isOrganization reviewers, ?_, ?_, ?_⟩
  · intro r
    rw [filterValidReviewers_fst, List.mem_filter, permEligible_true_iff]
  · intro r b
    rw [filterValidReviewers_snd]
    by_cases ho : isOrganization = true
    · rw [if_pos ho]
      simp only [List.mem_map, List.mem_filter]
      constructor
      · rintro ⟨r', ⟨hr', hnf⟩, heq⟩
        have h1 : r' = r := congrArg Prod.fst heq
        have h2 : isMember r' = b := congrArg Prod.snd heq
        subst h1
        exact ⟨hr', (permNotFound_true_iff (perm r')).mp hnf, ho, h2.symm⟩
      · rintro ⟨hr, hnf, _, hb⟩
        exact ⟨r, ⟨hr, (permNotFound_true_iff (perm r)).mpr hnf⟩, by rw [hb]⟩
    · simp only [Bool.not_eq_true] at ho
      simp [ho]
  · intro isMember' isOrganization'
    rw [filterValidReviewers_fst, filterValidReviewers_fst]
  · intro r rest
    rw [filterValidReviewers_fst, filterValidReviewers_fst, List.filter_cons]
    by_cases h : permEligible (perm r) = true
    · simp [h]
    · simp only [Bool.not_eq_true] at h
      simp [h]

/-- C7 (confirmed): the blame resolver never propagates a lookup error: every
failure yields the empty reviewer list; a failure whose message contains
`path does not exist` (the newly-added-file case) emits no warning, any other
failure emits a warning; a successful reply with a nullish range chain is also
empty with no warning. -/
theorem C7_blame_failure_policy (prAuthor msg : String) :
    (getBlameReviewers (.failure msg) prAuthor).1 = []
    ∧ (strIncludes msg "path does not exist" = true →
        getBlameReviewers (.failure msg) prAuthor = ([], false))
    ∧ (strIncludes msg "path does not exist" = false →
        getBlameReviewers (.failure msg) prAuthor = ([], true))
    ∧ getBlameReviewers (.success none) prAuthor = ([], false) := by
  refine ⟨?_, ?_, ?_, by simp [getBlameReviewers]⟩
  · unfold getBlameReviewers
    by_cases h : strIncludes msg "path does not exist" = true
    · simp [h]
    · simp only [Bool.not_eq_true] at h
      simp [h]
  · intro h
    simp [getBlameReviewers, h]
  · intro h
    simp [getBlameReviewers, h]

/-- Witness for C7 at a concrete failure message containing the
new-file marker. -/
theorem C7_blame_failure_policy_witness :
    strIncludes "path does not exist" "path does not exist" = true
    ∧ getBlameReviewers (.failure "path does not exist") "alice" = ([], false) :=
  ⟨by decide,
   (C7_blame_failure_policy "alice" "path does not exist").2.1 (by decide)⟩

/-- The sole-owner-author scenario of the spec: the PR author is the only
code owner matched for the touched path, defaults are configured, and
authors are excluded; parameterized by the author and the default list. -/
def soleOwnerFamily (a : String) (ds : List String) : Config :=
  { minReviewers := some 2, maxReviewers := some 3
    codeOwners := [("src/api/", [a])]
    defaultReviewers := some ds
    excludeAuthors := true
    timezone := none }

/-- The concrete sole-owner-author configuration (author `alice`,
defaults `bob`, `carol`). -/
def soleOwnerConfig : Config := soleOwnerFamily "alice" ["bob", "carol"]

/-- C8 (confirmed): when `excludeAuthors` is true the PR author is absent from
the reviewer set right after the exclusion step and stays absent through the
timezone filter, the permission filter and the final truncation, regardless of
which earlier stage (ownership, blame or defaults) added them. -/
theorem C8_author_exclusion_invariant (env : Env) (c : Config)
    (files : List ChangedFile) (pa : String) (h : c.excludeAuthors = true) :
    pa ∉ excludeStage c pa (defaultsStage c
        (blameStage env c files pa (ownershipStage env c files)))
    ∧ pa ∉ timezoneStage env c (excludeStage c pa (defaultsStage c
        (blameStage env c files pa (ownershipStage env c files))))
    ∧ pa ∉ (filterValidReviewers env.perm env.isMember env.isOrganization
        (timezoneStage env c (excludeStage c pa (defaultsStage c
          (blameStage env c files pa (ownershipStage env c files)))))).1
    ∧ pa ∉ runPipeline env c files pa := by
  have hnd : (defaultsStage c
      (blameStage env c files pa (ownershipStage env c files))).Nodup :=
    nodup_defaultsStage c _
      (nodup_blameStage env c files pa _ (nodup_ownershipStage env c files))
  have h4 : pa ∉ excludeStage c pa (defaultsStage c
      (blameStage env c files pa (ownershipStage env c files))) := by
    unfold excludeStage
    rw [if_pos h]
    intro hmem
    exact ((List.Nodup.mem_erase_iff hnd).mp hmem).1 rfl
  have h5 : pa ∉ timezoneStage env c (excludeStage c pa (defaultsStage c
      (blameStage env c files pa (ownershipStage env c files)))) :=
    fun hm => h4 ((timezoneStage_sublist env c _).subset hm)
  have h6 : pa ∉ (filterValidReviewers env.perm env.isMember env.isOrganization
      (timezoneStage env c (excludeStage c pa (defaultsStage c
        (blameStage env c files pa (ownershipStage env c files)))))).1 := by
    rw [filterValidReviewers_fst]
    intro hm
    exact h5 ((List.filter_sublist _).subset hm)
  refine ⟨h4, h5, h6, ?_⟩
  intro hm
  exact h6 ((jsSliceToEnd_sublist _ (effectiveMax c)).subset hm)

/-- Witness for C8 at the concrete sole-owner scenario. -/
theorem C8_author_exclusion_invariant_witness :
    soleOwnerConfig.excludeAuthors = true
    ∧ "alice" ∉ runPipeline probeEnv soleOwnerConfig
        [⟨"src/api/x.js", "added"⟩] "alice" :=
  ⟨rfl, (C8_author_exclusion_invariant probeEnv soleOwnerConfig
      [⟨"src/api/x.js", "added"⟩] "alice" rfl).2.2.2⟩

/-- Configuration for the C2 counterexample: one default reviewer (`bob`) is
already the only member of the set when the defaults stage runs. -/
def defaultsOverlapConfig : Config :=
  { minReviewers := some 2, maxReviewers := some 3
    codeOwners := []
    defaultReviewers := some ["bob", "carol"]
    excludeAuthors := false
    timezone := none }

/-- Counterexample to C2: with the set `["bob"]` (size 1 < minReviewers 2)
and defaults `["bob", "carol"]`, the defaults stage ends with the set still
below `minReviewers` even though the default list is not exhausted (`carol`
was never appended): the stage takes `slice(0, needed)` rather than appending
until the shortfall is met, so a default already present consumes its slot. -/
theorem C2_counterexample :
    ((["bob"].length : Int) < effectiveMin defaultsOverlapConfig)
    ∧ defaultsOverlapConfig.defaultReviewers = some ["bob", "carol"]
    ∧ defaultsStage defaultsOverlapConfig ["bob"] = ["bob"]
    ∧ ((defaultsStage defaultsOverlapConfig ["bob"]).length : Int) <
        effectiveMin defaultsOverlapConfig
    ∧ "carol" ∈ ["bob", "carol"]
    ∧ "carol" ∉ defaultsStage defaultsOverlapConfig ["bob"] := by decide

/-- C2 (corrected): the defaults stage adds the first
`minReviewers - |set|` entries of `defaultReviewers` to the set; when these
taken entries are pairwise distinct and none of them is already present, the
resulting set reaches `minReviewers` or exhausts the default list, but a taken
default already in the set consumes its slot without growing the set, so in
general the stage can finish below `minReviewers`. -/
theorem C2_defaults_stage_amended (c : Config) (rs ds : List String)
    (hds : c.defaultReviewers = some ds)
    (hlt : (rs.length : Int) < effectiveMin c)
    (hfresh : ∀ d ∈ ds.take (effectiveMin c - rs.length).toNat, d ∉ rs)
    (hnd : (ds.take (effectiveMin c - rs.length).toNat).Nodup) :
    defaultsStage c rs = rs ++ ds.take (effectiveMin c - rs.length).toNat
    ∧ (defaultsStage c rs).length = min (effectiveMin c).toNat (rs.length + ds.length) := by
  have hpos : (0 : Int) ≤ effectiveMin c - rs.length := by omega
  have hslice : jsSliceToEnd ds (effectiveMin c - rs.length) =
      ds.take (effectiveMin c - rs.length).toNat :=
    jsSliceToEnd_of_nonneg ds _ hpos
  have hmain : defaultsStage c rs = rs ++ ds.take (effectiveMin c - rs.length).toNat := by
    unfold defaultsStage
    rw [hds]
    show (if (rs.length : Int) < effectiveMin c then
        addAll rs (jsSliceToEnd ds (effectiveMin c - rs.length)) else rs) = _
    rw [if_pos hlt, hslice]
    exact addAll_eq_append rs _ hfresh hnd
  refine ⟨hmain, ?_⟩
  rw [hmain, List.length_append, List.length_take]
  omega

/-- Configuration for the C2 witness: defaults disjoint from the set. -/
def freshDefaultsConfig : Config :=
  { minReviewers := some 2, maxReviewers := some 3
    codeOwners := []
    defaultReviewers := some ["dave", "erin"]
    excludeAuthors := false
    timezone := none }

/-- Witness for the amended C2 on a set disjoint from the defaults. -/
theorem C2_defaults_stage_amended_witness :
    defaultsStage freshDefaultsConfig ["bob"] = ["bob", "dave"]
    ∧ (defaultsStage freshDefaultsConfig ["bob"]).length = 2 := by
  have h := C2_defaults_stage_amended freshDefaultsConfig ["bob"] ["dave", "erin"]
    rfl (by decide) (by decide) (by decide)
  refine ⟨?_, ?_⟩
  · rw [h.1]; rfl
  · rw [h.2]; rfl

/-- Configuration with a negative `maxReviewers` of `-1` (truthy in
JavaScript, so it survives validation) and two code owners. -/
def negMaxOneConfig : Config :=
  { minReviewers := some 2, maxReviewers := some (-1)
    codeOwners := [("a.js", ["alice", "bob"])]
    defaultReviewers := none
    excludeAuthors := false
    timezone := none }

/-- Counterexample to C3: with `maxReviewers = -1` (truthy, so the validation
keeps it) the final truncation is `slice(0, -1)`, which drops one element from
the end; the final requested list `["alice"]` has length 1, which is not at
most `maxReviewers = -1`. -/
theorem C3_counterexample :
    effectiveMax negMaxOneConfig = -1
    ∧ runPipeline probeEnv negMaxOneConfig [⟨"a.js", "added"⟩] "dave" = ["alice"]
    ∧ ¬(((runPipeline probeEnv negMaxOneConfig [⟨"a.js", "added"⟩] "dave").length : Int) ≤
        effectiveMax negMaxOneConfig) := by decide

/-- C3 (corrected): whenever the effective `maxReviewers` is nonnegative the
final requested list has length at most `maxReviewers`; the stages extend the
set in the fixed priority order ownership, then blame, then defaults (each
later stage only appends after the reviewers already present), and the final
list is an order-preserving sublist of the set after the defaults stage — the
only removals are the author exclusion, the timezone and permission filters,
and the final truncation, never an eviction of an earlier-stage reviewer in
favor of a later-stage one. -/
theorem C3_truncation_and_priority (env : Env) (c : Config)
    (files : List ChangedFile) (pa : String) (h : 0 ≤ effectiveMax c) :
    ((runPipeline env c files pa).length : Int) ≤ effectiveMax c
    ∧ ownershipStage env c files <+: blameStage env c files pa (ownershipStage env c files)
    ∧ blameStage env c files pa (ownershipStage env c files) <+:
        defaultsStage c (blameStage env c files pa (ownershipStage env c files))
    ∧ runPipeline env c files pa <+
        defaultsStage c (blameStage env c files pa (ownershipStage env c files)) := by
  refine ⟨?_, blameStage_extends env c files pa _, defaultsStage_extends c _,
    runPipeline_sublist_afterDefaults env c files pa⟩
  exact length_jsSliceToEnd_le _ _ h

/-- Configuration with the author as sole owner, no exclusion, used for the
confirmed author-inclusion run. -/
def authorOwnerConfig : Config :=
  { minReviewers := some 1, maxReviewers := some 3
    codeOwners := [("a.js", ["alice"])]
    defaultReviewers := none
    excludeAuthors := false
    timezone := none }

/-- Witness for the amended C3 at a nonnegative `maxReviewers`. -/
theorem C3_truncation_and_priority_witness :
    (0 : Int) ≤ effectiveMax authorOwnerConfig
    ∧ ((runPipeline probeEnv authorOwnerConfig [⟨"a.js", "added"⟩] "dave").length : Int) ≤
        effectiveMax authorOwnerConfig :=
  ⟨by decide, (C3_truncation_and_priority probeEnv authorOwnerConfig
      [⟨"a.js", "added"⟩] "dave" (by decide)).1⟩

/-- Configuration with a negative `maxReviewers` of `-5` and one code owner. -/
def negMaxFiveConfig : Config :=
  { minReviewers := some 2, maxReviewers := some (-5)
    codeOwners := [("a.js", ["alice"])]
    defaultReviewers := none
    excludeAuthors := false
    timezone := none }

/-- Counterexample to C9: `maxReviewers = -5` is truthy, so the validation
keeps it (no defaulting); the eligible candidate `alice` survives every
filter, yet `slice(0, -5)` empties the final list, so this configuration does
request zero reviewers through `maxReviewers` alone. -/
theorem C9_counterexample :
    maxDefaulted negMaxFiveConfig = false
    ∧ effectiveMax negMaxFiveConfig = -5
    ∧ (filterValidReviewers probeEnv.perm probeEnv.isMember probeEnv.isOrganization
        (timezoneStage probeEnv negMaxFiveConfig (excludeStage negMaxFiveConfig "dave"
          (defaultsStage negMaxFiveConfig (blameStage probeEnv negMaxFiveConfig
            [⟨"a.js", "added"⟩] "dave" (ownershipStage probeEnv negMaxFiveConfig
              [⟨"a.js", "added"⟩])))))).1 = ["alice"]
    ∧ runPipeline probeEnv negMaxFiveConfig [⟨"a.js", "added"⟩] "dave" = [] := by decide

theorem effectiveMin_eq_of_none (c : Config) (h : c.minReviewers = none) :
    effectiveMin c = 2 := by
  unfold effectiveMin; rw [h]

theorem effectiveMin_eq_of_some (c : Config) (v : Int) (h : c.minReviewers = some v) :
    effectiveMin c = if v = 0 then 2 else v := by
  unfold effectiveMin; rw [h]

theorem effectiveMax_eq_of_none (c : Config) (h : c.maxReviewers = none) :
    effectiveMax c = 3 := by
  unfold effectiveMax; rw [h]

theorem effectiveMax_eq_of_some (c : Config) (v : Int) (h : c.maxReviewers = some v) :
    effectiveMax c = if v = 0 then 3 else v := by
  unfold effectiveMax; rw [h]

theorem minDefaulted_eq_of_none (c : Config) (h : c.minReviewers = none) :
    minDefaulted c = true := by
  unfold minDefaulted; rw [h]

theorem minDefaulted_eq_of_some (c : Config) (v : Int) (h : c.minReviewers = some v) :
    minDefaulted c = (v == 0) := by
  unfold minDefaulted; rw [h]

theorem maxDefaulted_eq_of_none (c : Config) (h : c.maxReviewers = none) :
    maxDefaulted c = true := by
  unfold maxDefaulted; rw [h]

theorem maxDefaulted_eq_of_some (c : Config) (v : Int) (h : c.maxReviewers = some v) :
    maxDefaulted c = (v == 0) := by
  unfold maxDefaulted; rw [h]

/-- C9 (corrected): a falsy `minReviewers` or `maxReviewers` — absent or an
explicit `0` — is overwritten with its default (2 and 3 respectively) with a
warning, any other value is kept unchanged without a warning, and the
effective values are never 0; hence setting `maxReviewers` to `0` cannot yield
zero reviewers (it is replaced by 3).  However, a negative `maxReviewers` is
truthy, survives validation, and can still truncate the final list to empty,
so a configuration can request zero reviewers through a negative
`maxReviewers` (see the counterexample). -/
theorem C9_config_validation (c : Config) :
    (c.minReviewers = none ∨ c.minReviewers = some 0 →
      effectiveMin c = 2 ∧ minDefaulted c = true)
    ∧ (c.maxReviewers = none ∨ c.maxReviewers = some 0 →
      effectiveMax c = 3 ∧ maxDefaulted c = true)
    ∧ (∀ v, c.minReviewers = some v → v ≠ 0 →
      effectiveMin c = v ∧ minDefaulted c = false)
    ∧ (∀ v, c.maxReviewers = some v → v ≠ 0 →
      effectiveMax c = v ∧ maxDefaulted c = false)
    ∧ effectiveMin c ≠ 0
    ∧ effectiveMax c ≠ 0 := by
  refine ⟨?_, ?_, ?_, ?_, ?_, ?_⟩
  · rintro (h | h)
    · exact ⟨effectiveMin_eq_of_none c h, minDefaulted_eq_of_none c h⟩
    · rw [effectiveMin_eq_of_some c 0 h, minDefaulted_eq_of_some c 0 h]
      simp
  · rintro (h | h)
    · exact ⟨effectiveMax_eq_of_none c h, maxDefaulted_eq_of_none c h⟩
    · rw [effectiveMax_eq_of_some c 0 h, maxDefaulted_eq_of_some c 0 h]
      simp
  · intro v hv hne
    rw [effectiveMin_eq_of_some c v hv, minDefaulted_eq_of_some c v hv]
    simp [hne]
  · intro v hv hne
    rw [effectiveMax_eq_of_some c v hv, maxDefaulted_eq_of_some c v hv]
    simp [hne]
  · rcases hm : c.minReviewers with _ | v
    · rw [effectiveMin_eq_of_none c hm]; omega
    · rw [effectiveMin_eq_of_some c v hm]
      by_cases hv : v = 0
      · simp [hv]
      · simp [hv]
  · rcases hm : c.maxReviewers with _ | v
    · rw [effectiveMax_eq_of_none c hm]; omega
    · rw [effectiveMax_eq_of_some c v hm]
      by_cases hv : v = 0
      · simp [hv]
      · simp [hv]

/-- Configuration with an explicit `maxReviewers` of `0` and an absent
`minReviewers`. -/
def zeroMaxConfig : Config :=
  { minReviewers := none, maxReviewers := some 0
    codeOwners := []
    defaultReviewers := none
    excludeAuthors := false
    timezone := none }

/-- Witness for the amended C9: an explicit `0` is defaulted with a warning. -/
theorem C9_config_validation_witness :
    (effectiveMin zeroMaxConfig = 2 ∧ minDefaulted zeroMaxConfig = true)
    ∧ (effectiveMax zeroMaxConfig = 3 ∧ maxDefaulted zeroMaxConfig = true)
    ∧ effectiveMax zeroMaxConfig ≠ 0 :=
  ⟨(C9_config_validation zeroMaxConfig).1 (Or.inl rfl),
   (C9_config_validation zeroMaxConfig).2.1 (Or.inr rfl),
   (C9_config_validation zeroMaxConfig).2.2.2.2.2⟩

/-- Configuration whose default list contains the PR author. -/
def authorDefaultConfig : Config :=
  { minReviewers := some 1, maxReviewers := some 3
    codeOwners := []
    defaultReviewers := some ["alice"]
    excludeAuthors := false
    timezone := none }

/-- C10 (confirmed): with `excludeAuthors` false there are inputs whose final
requested list contains the PR author — one where the ownership stage adds the
author (the author owns the touched file) and one where the defaults stage
adds the author (the author is a configured default); only the blame stage
compares candidates against the PR author (last conjunct: a blame range
authored by the PR author yields no candidate). -/
theorem C10_author_can_be_requested :
    authorOwnerConfig.excludeAuthors = false
    ∧ runPipeline probeEnv authorOwnerConfig [⟨"a.js", "added"⟩] "alice" = ["alice"]
    ∧ authorDefaultConfig.excludeAuthors = false
    ∧ runPipeline probeEnv authorDefaultConfig [⟨"b.js", "added"⟩] "alice" = ["alice"]
    ∧ (getBlameReviewers (.success (some [⟨some "alice", 1, 3, 0⟩])) "alice").1 = [] := by
  decide

/-- Modelled from the claim wording of C1, not from the source: append default
reviewers one at a time, in configured order, until `minReviewers` is met or
the list is exhausted. -/
def specDefaultsUntil (minR : Int) : List String → List String → List String
  | [], rs => rs
  | d :: rest, rs =>
    if (rs.length : Int) < minR then specDefaultsUntil minR rest (insertIfAbsent rs d)
    else rs

/-- Modelled from the claim wording of C1, not from the source: the pipeline
with author exclusion applied before the defaults stage and defaults appended
until `minReviewers` is met or exhausted. -/
def claimOrderPipeline (env : Env) (c : Config) (files : List ChangedFile)
    (pa : String) : List String :=
  let r1 := ownershipStage env c files
  let r2 := blameStage env c files pa r1
  let rx := excludeStage c pa r2
  let r3 := match c.defaultReviewers with
    | some ds => specDefaultsUntil (effectiveMin c) ds rx
    | none => rx
  let r5 := timezoneStage env c r3
  let r6 := (filterValidReviewers env.perm env.isMember env.isOrganization r5).1
  jsSliceToEnd r6 (effectiveMax c)

/-- Counterexample to C1: in the sole-owner-author scenario the source runs
the defaults stage before the author exclusion, so only one default (`bob`)
is appended (the author still counts toward the shortfall) and the final list
is `["bob"]`; under the claim's order — exclusion first, then defaults until
`minReviewers` is met — the result would be `["bob", "carol"]`. -/
theorem C1_counterexample :
    runPipeline probeEnv soleOwnerConfig [⟨"src/api/x.js", "added"⟩] "alice" = ["bob"]
    ∧ claimOrderPipeline probeEnv soleOwnerConfig
        [⟨"src/api/x.js", "added"⟩] "alice" = ["bob", "carol"]
    ∧ runPipeline probeEnv soleOwnerConfig [⟨"src/api/x.js", "added"⟩] "alice" ≠
        claimOrderPipeline probeEnv soleOwnerConfig
          [⟨"src/api/x.js", "added"⟩] "alice" := by decide

/-- C1 (corrected): when the PR author is the sole code owner matched and
`excludeAuthors` is true, the defaults stage runs before the author exclusion:
the shortfall is computed with the author still in the set, so only
`minReviewers - 1` defaults (here one) are appended, and the exclusion step
afterwards removes the author, leaving the set one short of `minReviewers`;
the final requested list is the first default alone. -/
theorem C1_exclusion_after_defaults (a : String) (ds : List String)
    (h1 : a ∉ ds) (h2 : ds ≠ []) :
    defaultsStage (soleOwnerFamily a ds) [a] = [a] ++ ds.take 1
    ∧ excludeStage (soleOwnerFamily a ds) a ([a] ++ ds.take 1) = ds.take 1
    ∧ runPipeline probeEnv (soleOwnerFamily a ds) [⟨"src/api/x.js", "added"⟩] a
        = ds.take 1 := by
  obtain ⟨d, tl, rfl⟩ : ∃ d tl, ds = d :: tl := by
    rcases ds with _ | ⟨d, tl⟩
    · exact absurd rfl h2
    · exact ⟨d, tl, rfl⟩
  have hda : ¬d = a := fun h => h1 (h ▸ List.mem_cons_self d tl)
  have hr3 : defaultsStage (soleOwnerFamily a (d :: tl)) [a] = [a, d] := by
    simp [defaultsStage, soleOwnerFamily, effectiveMin, jsSliceToEnd, addAll,
      insertIfAbsent, hda]
  have hr4 : excludeStage (soleOwnerFamily a (d :: tl)) a [a, d] = [d] := by
    simp [excludeStage, soleOwnerFamily]
  refine ⟨by simpa using hr3, by simpa using hr4, ?_⟩
  have hpm : patternMatches probeEnv.glob "src/api/x.js" "src/api/" = true := by decide
  have hr1 : ownershipStage probeEnv (soleOwnerFamily a (d :: tl))
      [⟨"src/api/x.js", "added"⟩] = [a] := by
    simp [ownershipStage, soleOwnerFamily, getCodeOwners, matchingOwners, hpm,
      addAll, insertIfAbsent]
  have hst : (("added" == "modified") = false) := by decide
  have hr2 : blameStage probeEnv (soleOwnerFamily a (d :: tl))
      [⟨"src/api/x.js", "added"⟩] a [a] = [a] := by
    simp [blameStage, soleOwnerFamily, effectiveMin, effectiveMax, hst]
  have hr5 : timezoneStage probeEnv (soleOwnerFamily a (d :: tl)) [d] = [d] := by
    simp [timezoneStage, soleOwnerFamily]
  have hr6 : (filterValidReviewers probeEnv.perm probeEnv.isMember
      probeEnv.isOrganization [d]).1 = [d] := by
    rw [filterValidReviewers_fst]
    simp [probeEnv, permEligible, eligiblePerms]
  have hrp : runPipeline probeEnv (soleOwnerFamily a (d :: tl))
      [⟨"src/api/x.js", "added"⟩] a
      = jsSliceToEnd (filterValidReviewers probeEnv.perm probeEnv.isMember
          probeEnv.isOrganization
          (timezoneStage probeEnv (soleOwnerFamily a (d :: tl))
            (excludeStage (soleOwnerFamily a (d :: tl)) a
              (defaultsStage (soleOwnerFamily a (d :: tl))
                (blameStage probeEnv (soleOwnerFamily a (d :: tl))
                  [⟨"src/api/x.js", "added"⟩] a
                  (ownershipStage probeEnv (soleOwnerFamily a (d :: tl))
                    [⟨"src/api/x.js", "added"⟩])))))).1
          (effectiveMax (soleOwnerFamily a (d :: tl))) := rfl
  rw [hrp, hr1, hr2, hr3, hr4, hr5, hr6]
  simp [jsSliceToEnd, effectiveMax, soleOwnerFamily]

/-- Witness for the corrected C1 at the concrete sole-owner scenario. -/
theorem C1_exclusion_after_defaults_witness :
    ("alice" ∉ ["bob", "carol"]) ∧ (["bob", "carol"] ≠ ([] : List String))
    ∧ runPipeline probeEnv (soleOwnerFamily "alice" ["bob", "carol"])
        [⟨"src/api/x.js", "added"⟩] "alice" = ["bob", "carol"].take 1 :=
  ⟨by decide, by decide,
   (C1_exclusion_after_defaults "alice" ["bob", "carol"] (by decide) (by decide)).2.2⟩

end AssignReviewers
